import Mathlib

/-!
# insta-n-gram: a verification development for `ngrams.cpp`

A shallow embedding of the n-gram counter of `src/ngrams.cpp`.

Modelling conventions.

* A `std::string` is a list of characters (`Str`); one Lean `Char` stands for one C++ `char`.
* `std::size_t` arithmetic is 64-bit: the loop bound `filtered_text.size() - n` and the
  loop counter are reduced modulo `2 ^ 64`.
* The table `ngrams` (`std::unordered_map<std::string, std::atomic_int>`) is an association
  list with at most one entry per key; it is only ever read through `lookup` / `count`.
  Its counters are 32-bit `std::atomic_int`: an increment wraps from `INT_MAX` to `INT_MIN`
  (`wrap_int`).
* The counter `num_files_done` is a natural number: it counts completed jobs, and the number
  of jobs is what `int num_files_total` holds.
* A call that may leave by an exception or spin for `2 ^ 64` iterations returns an `Outcome`;
  the loop is driven by an explicit iteration budget (`fuel`).
-/

namespace Ngrams

/-- A `std::string`. -/
abbrev Str := List Char

/-- The type `ngrams_map` of line 21. -/
abbrev ngrams_map := List (Str × Int)

/-- The value an `int` holds after an arithmetic step of `std::atomic_int`: two's complement,
wrapped into `-2^31 .. 2^31 - 1`. -/
def wrap_int (x : Int) : Int := (x + 2147483648) % 4294967296 - 2147483648

/-- The modulus of `std::size_t` arithmetic. -/
def SIZE_MOD : Nat := 2 ^ 64

/-- The method `std::string::find(char)`: index of the first occurrence, `none` for `npos`. -/
def find : Str → Char → Option Nat
  | [], _ => none
  | x :: xs, c => if x = c then some 0 else (find xs c).map (fun i => i + 1)

/-- Lines 39-45. -/
def is_allowed (whitelist : Str) (c : Char) : Bool :=
  if whitelist.isEmpty then true else (find whitelist c).isSome

/-- Lines 49-60: the local `filtered_text` of `process_string_and_update_ngrams`.
The range-for with `push_back` is a left fold appending one character at a time. -/
def filtered_text (whitelist str : Str) : Str :=
  if whitelist ≠ [] then
    str.foldl (fun acc c => if is_allowed whitelist c then acc ++ [c] else acc) []
  else
    str

/-- Reading a key of the table: `none` when the key is absent. -/
def lookup : ngrams_map → Str → Option Int
  | [], _ => none
  | (k', c) :: rest, k => if k' = k then some c else lookup rest k

/-- The count of a key, `0` if absent. -/
def count (t : ngrams_map) (k : Str) : Int := (lookup t k).getD 0

/-- Line 69, `ngrams[ngram]++`: an absent key is inserted with value `0`, then incremented;
the increment is that of `std::atomic_int`, which wraps. -/
def increment : ngrams_map → Str → ngrams_map
  | [], k => [(k, wrap_int (0 + 1))]
  | (k', c) :: rest, k =>
    if k' = k then (k', wrap_int (c + 1)) :: rest else (k', c) :: increment rest k

/-- The method `std::string::substr(pos, count)`: `none` stands for `std::out_of_range`
(thrown when `pos > size()`); otherwise at most `count` characters starting at `pos`. -/
def substr (s : Str) (pos cnt : Nat) : Option Str :=
  if pos > s.length then none else some ((s.drop pos).take cnt)

/-- How a call ends. -/
inductive Outcome (σ : Type) where
  /-- Normal return, with the state left behind. -/
  | returned (s : σ)
  /-- The exception `std::out_of_range` left the call; nothing catches it (the handler of
  `process_file` is for `fs::filesystem_error` only), so the thread function ends in
  `std::terminate`. Carries the state at the throw. -/
  | out_of_range (s : σ)
  /-- The iteration budget ran out with the loop still running. -/
  | out_of_fuel (s : σ)
  deriving DecidableEq, Repr

/-- Lines 63-72: the loop `for (std::size_t i = 0; i <= filtered_text.size() - n; i++)`,
entered at counter value `i` with table `t`. The subtraction and the increment are `size_t`
operations. -/
def ngram_loop (n : Nat) (f : Str) : Nat → Nat → ngrams_map → Outcome ngrams_map
  | 0, _, t => Outcome.out_of_fuel t
  | fuel + 1, i, t =>
    if i ≤ (f.length + SIZE_MOD - n % SIZE_MOD) % SIZE_MOD then
      if !f.isEmpty then
        match substr f i (n % SIZE_MOD) with
        | none => Outcome.out_of_range t
        | some ngram => ngram_loop n f fuel ((i + 1) % SIZE_MOD) (increment t ngram)
      else
        ngram_loop n f fuel ((i + 1) % SIZE_MOD) t
    else
      Outcome.returned t

/-- Lines 48-73. -/
def process_string_and_update_ngrams (fuel n : Nat) (whitelist str : Str)
    (t : ngrams_map) : Outcome ngrams_map :=
  ngram_loop n (filtered_text whitelist str) fuel 0 t

/-- Calls of `process_string_and_update_ngrams` on the contents of a list, one after another
on the same table; a call that does not return ends the sequence. -/
def process_strings (fuel n : Nat) (whitelist : Str) :
    List Str → ngrams_map → Outcome ngrams_map
  | [], t => Outcome.returned t
  | s :: rest, t =>
    match process_string_and_update_ngrams fuel n whitelist s t with
    | Outcome.returned t' => process_strings fuel n whitelist rest t'
    | o => o

/-- The state a call leaves when it returns; `none` when it does not return. -/
def Outcome.final {σ : Type} : Outcome σ → Option σ
  | Outcome.returned s => some s
  | _ => none

/-- Applies a function to the state an outcome carries. -/
def Outcome.map {σ τ : Type} (g : σ → τ) : Outcome σ → Outcome τ
  | Outcome.returned s => Outcome.returned (g s)
  | Outcome.out_of_range s => Outcome.out_of_range (g s)
  | Outcome.out_of_fuel s => Outcome.out_of_fuel (g s)

/-- The keys the loop of lines 63-72 increments, in order, and the way it ends: the control
flow of `ngram_loop`, which never reads the table. -/
def loop_keys (n : Nat) (f : Str) : Nat → Nat → Outcome (List Str)
  | 0, _ => Outcome.out_of_fuel []
  | fuel + 1, i =>
    if i ≤ (f.length + SIZE_MOD - n % SIZE_MOD) % SIZE_MOD then
      if !f.isEmpty then
        match substr f i (n % SIZE_MOD) with
        | none => Outcome.out_of_range []
        | some ngram => (loop_keys n f fuel ((i + 1) % SIZE_MOD)).map (fun ks => ngram :: ks)
      else
        loop_keys n f fuel ((i + 1) % SIZE_MOD)
    else
      Outcome.returned []

/-- What `process_file` finds at the path it is given (lines 127-141). -/
inductive FileRead where
  /-- The path is not a regular file: `fs::is_regular_file` is false. -/
  | not_regular
  /-- The call `fs::is_regular_file` throws `fs::filesystem_error`, caught at line 149. -/
  | filesystem_error
  /-- The stream does not open: `file.is_open()` is false. -/
  | unopenable
  /-- The stream opens and the `peek()` test of line 132 finds the end of file. -/
  | empty
  /-- The stream opens, is not empty, and `buffer.str()` is the given content. -/
  | content (s : Str)
  deriving DecidableEq, Repr

/-- The globals the workers share: the table `ngrams` and the counter `num_files_done`. -/
structure Shared where
  /-- The global `ngrams` of line 34. -/
  ngrams : ngrams_map
  /-- The global `num_files_done` of line 29. -/
  num_files_done : Nat
  deriving DecidableEq, Repr

/-- Lines 125-155. The increment of `num_files_done` (line 154) is reached on every path
except when `process_string_and_update_ngrams` does not return. -/
def process_file (fuel n : Nat) (whitelist : Str) (file : FileRead) (st : Shared) :
    Outcome Shared :=
  match file with
  | FileRead.content s =>
    match process_string_and_update_ngrams fuel n whitelist s st.ngrams with
    | Outcome.returned t => Outcome.returned ⟨t, st.num_files_done + 1⟩
    | Outcome.out_of_range t => Outcome.out_of_range ⟨t, st.num_files_done⟩
    | Outcome.out_of_fuel t => Outcome.out_of_fuel ⟨t, st.num_files_done⟩
  | _ => Outcome.returned ⟨st.ngrams, st.num_files_done + 1⟩

/-! ### Start-up: `main`, lines 238-293 -/

/-- The configuration globals of lines 26-28 and the local `excluded_folders` of `main`. -/
structure Config where
  /-- The global `whitelist`. -/
  whitelist : Str
  /-- The global `n`. -/
  n : Int
  /-- The global `num_threads`. -/
  num_threads : Int
  /-- The local `excluded_folders` of `main`. -/
  excluded_folders : List Str
  deriving DecidableEq, Repr

/-- The initial values of the globals: no allow-list, `n = 3`, four threads. -/
def default_config : Config := ⟨[], 3, 4, []⟩

/-- The messages `main` writes to `std::cerr` before it returns 1. -/
inductive Diagnostic where
  | usage
  | not_a_valid_directory
  | expected_whitelist
  | expected_integer_after_n
  | n_must_be_positive
  | expected_directory_after_exclude
  | expected_integer_after_threads
  | threads_must_be_positive
  | unrecognized_option (arg : Str)
  deriving DecidableEq, Repr

/-- Where the first part of `main` (up to line 293) ends. -/
inductive Startup where
  /-- A `return` statement inside lines 240-293: `main` ends with this exit status, before
  `list_files` is called (line 297) and before any thread is created (lines 306-312). -/
  | returns (status : Nat) (d : Diagnostic)
  /-- The call `std::stoi` threw (`std::invalid_argument` or `std::out_of_range`); nothing
  catches it. -/
  | stoi_throws
  /-- The option loop ended and control reaches line 295 with this configuration. -/
  | enumerate (cfg : Config)
  deriving DecidableEq, Repr

/-- The predicate `std::isspace` in the "C" locale. -/
def isspace (c : Char) : Bool :=
  c.toNat = 32 || (9 ≤ c.toNat && c.toNat ≤ 13)

/-- The function `std::stoi` in base 10: leading white space is skipped, an optional sign is
read, then the longest run of decimal digits; trailing characters are ignored. `none` stands
for an exception: `std::invalid_argument` when there is no digit, `std::out_of_range` when
the value is not an `int`. -/
def stoi (s : Str) : Option Int :=
  let s1 := s.dropWhile isspace
  let negative := s1.head? = some '-'
  let s2 := if s1.head? = some '-' ∨ s1.head? = some '+' then s1.tail else s1
  let ds := s2.takeWhile Char.isDigit
  if ds.isEmpty then none
  else
    let magnitude : Int := (ds.foldl (fun a d => 10 * a + (d.toNat - 48)) 0 : Nat)
    let v : Int := if negative then -magnitude else magnitude
    if v < -2147483648 ∨ 2147483647 < v then none else some v

/-- Lines 251-293: the option loop of `main`, on the arguments from `argv[2]` on. An option
takes the next argument as its value, whatever that argument is. -/
def parse_options : List Str → Config → Startup
  | [], cfg => Startup.enumerate cfg
  | [arg], _ =>
    if arg = "--whitelist".toList then Startup.returns 1 Diagnostic.expected_whitelist
    else if arg = "--n".toList then Startup.returns 1 Diagnostic.expected_integer_after_n
    else if arg = "--exclude".toList then
      Startup.returns 1 Diagnostic.expected_directory_after_exclude
    else if arg = "--threads".toList then
      Startup.returns 1 Diagnostic.expected_integer_after_threads
    else Startup.returns 1 (Diagnostic.unrecognized_option arg)
  | arg :: value :: rest, cfg =>
    if arg = "--whitelist".toList then
      parse_options rest ⟨value, cfg.n, cfg.num_threads, cfg.excluded_folders⟩
    else if arg = "--n".toList then
      match stoi value with
      | none => Startup.stoi_throws
      | some k =>
        if k ≤ 0 then Startup.returns 1 Diagnostic.n_must_be_positive
        else parse_options rest ⟨cfg.whitelist, k, cfg.num_threads, cfg.excluded_folders⟩
    else if arg = "--exclude".toList then
      parse_options rest ⟨cfg.whitelist, cfg.n, cfg.num_threads, cfg.excluded_folders ++ [value]⟩
    else if arg = "--threads".toList then
      match stoi value with
      | none => Startup.stoi_throws
      | some k =>
        if k ≤ 0 then Startup.returns 1 Diagnostic.threads_must_be_positive
        else parse_options rest ⟨cfg.whitelist, cfg.n, k, cfg.excluded_folders⟩
    else Startup.returns 1 (Diagnostic.unrecognized_option arg)

/-- Lines 238-293 of `main`. `is_valid_directory` answers the test
`fs::exists(folder_path) && fs::is_directory(folder_path)` of line 246. -/
def main_startup (is_valid_directory : Str → Bool) (argv : List Str) : Startup :=
  match argv with
  | [] => Startup.returns 1 Diagnostic.usage
  | [_] => Startup.returns 1 Diagnostic.usage
  | _ :: folder :: options =>
    if !is_valid_directory folder then Startup.returns 1 Diagnostic.not_a_valid_directory
    else parse_options options default_config

/-! ### The worker pool: `process_files`, lines 158-175, run by the threads of lines 308-317 -/

/-- Where a worker stands in `process_files`. -/
inductive WorkerPc where
  /-- At lines 162-163: about to lock `files_mutex` and wait for a non-empty queue. -/
  | waiting
  /-- After lines 164-167: the front job is popped into `file_path`, the lock released. -/
  | holding (file_path : Str)
  /-- After line 169: `process_file` has returned, `files_queue.empty()` is tested next. -/
  | testing
  /-- After the `break` of line 172: the thread function has returned. -/
  | exited
  deriving DecidableEq, Repr

/-- The state of the pool. The last two fields are history variables: they record the pops
and the completed `process_file` calls and are never read by a step. -/
structure Pool where
  /-- The global `files_queue`, front first. -/
  files_queue : List Str
  /-- The program counters of the `num_threads` workers. -/
  workers : List WorkerPc
  /-- The globals `ngrams` and `num_files_done`. -/
  shared : Shared
  /-- Whether `std::terminate` has been called (an exception left a thread function). -/
  terminated : Bool
  /-- History: the jobs popped so far, each with the index of the worker that popped it. -/
  dequeued : List (Nat × Str)
  /-- History: the jobs whose `process_file` call has returned. -/
  processed : List Str
  deriving DecidableEq, Repr

/-- What is fixed during a run: the iteration budget of a call, the configuration, and what
each path holds on disk. -/
structure Env where
  /-- Iteration budget of one `process_string_and_update_ngrams` call. -/
  fuel : Nat
  /-- The global `n`. -/
  n : Nat
  /-- The global `whitelist`. -/
  whitelist : Str
  /-- What `process_file` finds at a path. -/
  read : Str → FileRead

/-- The pool when the threads start: the queue filled by `list_files`, every worker at the
top of its loop, empty table, `num_files_done = 0`. -/
def Pool.init (W : Nat) (jobs : List Str) : Pool :=
  ⟨jobs, List.replicate W WorkerPc.waiting, ⟨[], 0⟩, false, [], []⟩

/-- One atomic step of worker `w`, `none` when that worker cannot move:
* `waiting`: with a non-empty queue, pop the front job (lines 162-167); with an empty queue
  the worker stays blocked in `files_cv.wait`, since nothing fills the queue or notifies after
  `list_files`;
* `holding`: run `process_file` on the job (line 169); an exception ends the process;
* `testing`: leave the loop if the queue is empty, else go round again (lines 171-173). -/
def Pool.process_files_step (env : Env) (w : Nat) (p : Pool) : Option Pool :=
  if p.terminated then none
  else
    match p.workers[w]? with
    | none => none
    | some WorkerPc.exited => none
    | some WorkerPc.waiting =>
      match p.files_queue with
      | [] => none
      | job :: queue =>
        some ⟨queue, p.workers.set w (WorkerPc.holding job), p.shared, p.terminated,
          p.dequeued ++ [(w, job)], p.processed⟩
    | some (WorkerPc.holding job) =>
      match process_file env.fuel env.n env.whitelist (env.read job) p.shared with
      | Outcome.returned st =>
        some ⟨p.files_queue, p.workers.set w WorkerPc.testing, st, p.terminated, p.dequeued,
          p.processed ++ [job]⟩
      | Outcome.out_of_range st =>
        some ⟨p.files_queue, p.workers, st, true, p.dequeued, p.processed⟩
      | Outcome.out_of_fuel _ => none
    | some WorkerPc.testing =>
      some ⟨p.files_queue,
        p.workers.set w (if p.files_queue.isEmpty then WorkerPc.exited else WorkerPc.waiting),
        p.shared, p.terminated, p.dequeued, p.processed⟩

/-- The pool after a schedule: the workers named in the list move one step each, in that
order; a worker that cannot move is passed over. Every reachable state is `run` of some
schedule from `Pool.init`. -/
def Pool.run (env : Env) : List Nat → Pool → Pool
  | [], p => p
  | w :: schedule, p =>
    match Pool.process_files_step env w p with
    | some p' => Pool.run env schedule p'
    | none => Pool.run env schedule p

/-- All workers have left their loops. -/
def Pool.all_exited (p : Pool) : Prop := ∀ pc ∈ p.workers, pc = WorkerPc.exited

instance (p : Pool) : Decidable p.all_exited := by
  unfold Pool.all_exited
  infer_instance

/-- The job a worker holds, if any. -/
def WorkerPc.held : WorkerPc → Option Str
  | WorkerPc.holding job => some job
  | _ => none

/-- Marks a worker that is past the wait of line 163 (it has popped a job at least once). -/
def WorkerPc.active : WorkerPc → Option Unit
  | WorkerPc.waiting => none
  | _ => some ()

/-- A worker is blocked in the wait of line 163: it is `waiting` and the queue is empty. -/
def Pool.blocked (p : Pool) (w : Nat) : Prop :=
  p.workers[w]? = some WorkerPc.waiting ∧ p.files_queue = []

instance (p : Pool) (w : Nat) : Decidable (p.blocked w) := by
  unfold Pool.blocked
  infer_instance

/-- The n-grams of a text as the specification words them: the windows of width `n` at the
start positions `0 .. L - n`, none when `L < n`. -/
def sliding_windows (n : Nat) (f : Str) : List Str :=
  (List.range (f.length + 1 - n)).map (fun i => (f.drop i).take n)

/-- Number of start positions `i` in `0 .. L - n` with `f[i..i+n) = k`. -/
def occurrences (n : Nat) (f k : Str) : Nat :=
  (List.range (f.length + 1 - n)).countP (fun i => decide ((f.drop i).take n = k))

/-- Two tables with the same keys and the same counts. -/
def SameTable (t1 t2 : ngrams_map) : Prop := ∀ k, lookup t1 k = lookup t2 k

/-- Two outcomes that both fail to return, or both return tables with the same keys and
counts. -/
def SameFinal (o1 o2 : Outcome ngrams_map) : Prop :=
  ∀ k, Option.map (fun t => lookup t k) o1.final = Option.map (fun t => lookup t k) o2.final

/-- The invariant of the pool for the jobs `jobs` and `W` workers. -/
structure Pool.Inv (jobs : List Str) (W : Nat) (p : Pool) : Prop where
  /-- The popped jobs followed by the queue are the jobs enqueued. -/
  split : jobs = p.dequeued.map Prod.snd ++ p.files_queue
  /-- A popped job is either processed or held by a worker. -/
  owned : (p.processed ++ p.workers.filterMap WorkerPc.held).Perm (p.dequeued.map Prod.snd)
  /-- The counter counts the completed calls. -/
  done : p.shared.num_files_done = p.processed.length
  /-- A worker leaves only when the queue is empty, and the queue is never refilled. -/
  drained : WorkerPc.exited ∈ p.workers → p.files_queue = []
  /-- The number of workers is fixed. -/
  size : p.workers.length = W
  /-- Each worker that is past the wait has popped a job of its own. -/
  busy : (p.workers.filterMap WorkerPc.active).length ≤ p.dequeued.length

/-- Every key of the table is a string of exactly `n` characters, all of them in the
allow-list when there is one. -/
def KeysWellFormed (n : Nat) (w : Str) (t : ngrams_map) : Prop :=
  ∀ k c, lookup t k = some c → k.length = n ∧ (w ≠ [] → ∀ ch ∈ k, ch ∈ w)

/-! ## The frequency table -/

theorem SIZE_MOD_eq : SIZE_MOD = 18446744073709551616 := by
  norm_num [SIZE_MOD]

theorem wrap_int_of_range (x : Int) (hlo : -2147483648 ≤ x) (hhi : x ≤ 2147483647) :
    wrap_int x = x := by
  unfold wrap_int
  omega

theorem wrap_int_add (a b : Int) : wrap_int (wrap_int a + b) = wrap_int (a + b) := by
  unfold wrap_int
  omega

theorem lookup_increment (t : ngrams_map) (k' k : Str) :
    lookup (increment t k') k
      = if k' = k then some (wrap_int ((lookup t k).getD 0 + 1)) else lookup t k := by
  induction t with
  | nil =>
    by_cases h : k' = k <;> simp [increment, lookup, h]
  | cons e rest ih =>
    obtain ⟨a, c⟩ := e
    by_cases h : k' = k
    · subst h
      by_cases ha : a = k'
      · simp [increment, lookup, ha]
      · simp [increment, lookup, ha, ih]
    · by_cases ha : a = k'
      · subst ha
        simp [increment, lookup, h]
      · by_cases hk : a = k
        · subst hk
          simp [increment, lookup, ha, h]
        · simp [increment, lookup, ha, hk, ih, h]

theorem count_increment (t : ngrams_map) (k' k : Str) :
    count (increment t k') k = if k' = k then wrap_int (count t k + 1) else count t k := by
  unfold count
  rw [lookup_increment]
  by_cases h : k' = k <;> simp [h]

theorem lookup_foldl_increment (ks : List Str) (t : ngrams_map) (k : Str) :
    lookup (ks.foldl increment t) k
      = if k ∈ ks then some (wrap_int (count t k + (ks.count k : Nat))) else lookup t k := by
  induction ks generalizing t with
  | nil => simp
  | cons a ks ih =>
    rw [List.foldl_cons, ih, count_increment, lookup_increment, List.count_cons]
    by_cases hk : k ∈ ks
    · by_cases ha : a = k
      · simp only [hk, ha, if_true, List.mem_cons, or_true, beq_self_eq_true, Nat.cast_add,
          Nat.cast_one, wrap_int_add]
        congr 2
        omega
      · have ha' : ¬ k = a := fun e => ha e.symm
        simp [hk, ha, ha']
    · have h0 : ks.count k = 0 := List.count_eq_zero_of_not_mem hk
      by_cases ha : a = k
      · subst ha
        simp [hk, h0, count]
      · have ha' : ¬ k = a := fun e => ha e.symm
        simp [hk, ha, ha']

theorem count_foldl_increment (ks : List Str) (t : ngrams_map) (k : Str) :
    count (ks.foldl increment t) k
      = if ks.count k = 0 then count t k else wrap_int (count t k + (ks.count k : Nat)) := by
  have h := lookup_foldl_increment ks t k
  by_cases hk : k ∈ ks
  · have hc : ¬ ks.count k = 0 := fun e => (List.count_eq_zero.mp e) hk
    unfold count at *
    simp [h, hk, hc]
  · have hc : ks.count k = 0 := List.count_eq_zero_of_not_mem hk
    unfold count at *
    simp [h, hk, hc]

theorem sliding_windows_count (n : Nat) (f k : Str) :
    (sliding_windows n f).count k = occurrences n f k := by
  simp only [sliding_windows, occurrences, List.count, List.countP_map]
  apply List.countP_congr
  intro i _
  simp [Function.comp]

/-! ## The n-gram loop when the text is at least as long as the window -/

theorem loop_bound_of_le (n L : Nat) (hL : n ≤ L) (hsz : L < SIZE_MOD) :
    (L + SIZE_MOD - n % SIZE_MOD) % SIZE_MOD = L - n := by
  rw [SIZE_MOD_eq] at *
  omega

theorem ngram_loop_of_le (n : Nat) (f : Str) (hn : 1 ≤ n) (hL : n ≤ f.length)
    (hsz : f.length < SIZE_MOD) :
    ∀ (m i fuel : Nat) (t : ngrams_map), i + m = f.length + 1 - n → m < fuel →
      ngram_loop n f fuel i t
        = Outcome.returned
            (((List.range' i m).map (fun j => (f.drop j).take n)).foldl increment t) := by
  have hnm : n % SIZE_MOD = n := Nat.mod_eq_of_lt (by omega)
  have hb : (f.length + SIZE_MOD - n) % SIZE_MOD = f.length - n := by
    have h := loop_bound_of_le n f.length hL hsz
    rwa [hnm] at h
  have hne : f.isEmpty = false := by
    cases f with
    | nil => simp at hL; omega
    | cons a l => rfl
  intro m
  induction m with
  | zero =>
    intro i fuel t hi hfuel
    obtain ⟨fuel, rfl⟩ : ∃ g, fuel = g + 1 := ⟨fuel - 1, by omega⟩
    have hgt : ¬ i ≤ f.length - n := by omega
    simp [ngram_loop, hnm, hb, hgt]
  | succ m ih =>
    intro i fuel t hi hfuel
    obtain ⟨fuel, rfl⟩ : ∃ g, fuel = g + 1 := ⟨fuel - 1, by omega⟩
    have hle : i ≤ f.length - n := by omega
    have hpos : ¬ i > f.length := by omega
    have hnext : (i + 1) % SIZE_MOD = i + 1 := Nat.mod_eq_of_lt (by omega)
    have hrec := ih (i + 1) fuel (increment t ((f.drop i).take n)) (by omega) (by omega)
    simp only [ngram_loop, hnm, hb, hle, hne, substr, hpos, hnext, if_true, if_false,
      Bool.not_false]
    rw [hrec]
    simp [List.range'_succ]

theorem foldl_filter_append (p : Char → Bool) (s acc : Str) :
    s.foldl (fun a c => if p c then a ++ [c] else a) acc = acc ++ s.filter p := by
  induction s generalizing acc with
  | nil => simp
  | cons x xs ih =>
    rw [List.foldl_cons, ih]
    by_cases h : p x <;> simp [h, List.filter_cons]

theorem find_isSome (w : Str) (c : Char) : (find w c).isSome = decide (c ∈ w) := by
  induction w with
  | nil => simp [find]
  | cons x xs ih =>
    by_cases h : x = c
    · simp [find, h]
    · have h' : ¬ c = x := fun e => h e.symm
      simp [find, h, h', ih]

theorem is_allowed_eq (w : Str) (c : Char) (hw : w ≠ []) :
    is_allowed w c = decide (c ∈ w) := by
  cases w with
  | nil => exact absurd rfl hw
  | cons x xs => simp only [is_allowed, List.isEmpty_cons, find_isSome]; rfl

theorem filtered_text_eq (w s : Str) :
    filtered_text w s = if w = [] then s else s.filter (fun c => decide (c ∈ w)) := by
  by_cases hw : w = []
  · simp [filtered_text, hw]
  · have hfun : (fun acc c => if is_allowed w c then acc ++ [c] else acc)
        = (fun (acc : Str) c => if (fun c => decide (c ∈ w)) c then acc ++ [c] else acc) := by
      funext acc c
      rw [is_allowed_eq w c hw]
    simp only [filtered_text, hw, ne_eq, not_false_eq_true, if_true, if_false, hfun]
    rw [foldl_filter_append]
    simp

theorem filtered_text_length_le (w s : Str) : (filtered_text w s).length ≤ s.length := by
  rw [filtered_text_eq]
  by_cases hw : w = []
  · simp [hw]
  · simp only [hw, if_false]
    exact List.length_filter_le _ _

theorem process_string_returns (n fuel : Nat) (w s : Str) (t : ngrams_map)
    (hn : 1 ≤ n) (hL : n ≤ (filtered_text w s).length) (hsz : s.length < SIZE_MOD)
    (hfuel : s.length < fuel) :
    process_string_and_update_ngrams fuel n w s t
      = Outcome.returned ((sliding_windows n (filtered_text w s)).foldl increment t) := by
  have hlen := filtered_text_length_le w s
  unfold process_string_and_update_ngrams sliding_windows
  rw [ngram_loop_of_le n (filtered_text w s) hn hL (by omega)
    ((filtered_text w s).length + 1 - n) 0 fuel t (by omega) (by omega)]
  rw [List.range_eq_range']

/-- C1 (amended). For a window width `n ≥ 1` and a content whose filtered text `f` has length
`L ≥ n`, `process_string_and_update_ngrams` returns, having performed exactly the `L - n + 1`
increments on the keys `f[i..i+n)` for `i = 0 .. L - n`, in that order. For every string `k`
with `m` positions `i` in `0 .. L - n` such that `f[i..i+n) = k`: the count of `k` afterwards
is its count before (0 if absent) plus `m`, provided that sum does not exceed
`INT_MAX = 2^31 - 1`; in general it is that sum wrapped into the range of a 32-bit `int`
(and the count before itself when `m = 0`). -/
theorem process_string_counts_every_window (n fuel : Nat) (w s : Str) (t : ngrams_map)
    (hn : 1 ≤ n) (hL : n ≤ (filtered_text w s).length) (hsz : s.length < SIZE_MOD)
    (hfuel : s.length < fuel) :
    process_string_and_update_ngrams fuel n w s t
        = Outcome.returned ((sliding_windows n (filtered_text w s)).foldl increment t)
      ∧ (sliding_windows n (filtered_text w s)).length = (filtered_text w s).length - n + 1
      ∧ (∀ k, -2147483648 ≤ count t k →
          count t k + (occurrences n (filtered_text w s) k : Nat) ≤ 2147483647 →
          count ((sliding_windows n (filtered_text w s)).foldl increment t) k
            = count t k + (occurrences n (filtered_text w s) k : Nat))
      ∧ ∀ k, count ((sliding_windows n (filtered_text w s)).foldl increment t) k
            = if occurrences n (filtered_text w s) k = 0 then count t k
              else wrap_int (count t k + (occurrences n (filtered_text w s) k : Nat)) := by
  have hcount : ∀ k, count ((sliding_windows n (filtered_text w s)).foldl increment t) k
      = if occurrences n (filtered_text w s) k = 0 then count t k
        else wrap_int (count t k + (occurrences n (filtered_text w s) k : Nat)) := by
    intro k
    rw [count_foldl_increment, sliding_windows_count]
  refine ⟨process_string_returns n fuel w s t hn hL hsz hfuel, ?_, ?_, hcount⟩
  · simp only [sliding_windows, List.length_map, List.length_range]
    omega
  · intro k hlo hhi
    rw [hcount k]
    by_cases h0 : occurrences n (filtered_text w s) k = 0
    · simp [h0]
    · simp only [h0, if_false]
      exact wrap_int_of_range _ (by omega) hhi

/-- Witness for C1: allow-list "abc", `n = 2`, content "xaybzc" gives the table
`ab ↦ 1, bc ↦ 1` from the empty table; with the empty allow-list, `n = 3` and content "aaaa"
the table is `aaa ↦ 2`. -/
theorem process_string_counts_every_window_witness :
    (1 ≤ 2 ∧ 2 ≤ (filtered_text "abc".toList "xaybzc".toList).length
        ∧ "xaybzc".toList.length < SIZE_MOD ∧ "xaybzc".toList.length < 10)
    ∧ (-2147483648 ≤ count [] "ab".toList
        ∧ count [] "ab".toList
            + (occurrences 2 (filtered_text "abc".toList "xaybzc".toList) "ab".toList : Nat)
          ≤ 2147483647)
    ∧ count ((sliding_windows 2 (filtered_text "abc".toList "xaybzc".toList)).foldl
          increment []) "ab".toList
        = count [] "ab".toList
          + (occurrences 2 (filtered_text "abc".toList "xaybzc".toList) "ab".toList : Nat)
    ∧ process_string_and_update_ngrams 10 2 "abc".toList "xaybzc".toList []
        = Outcome.returned [("ab".toList, 1), ("bc".toList, 1)]
    ∧ process_string_and_update_ngrams 10 3 [] "aaaa".toList []
        = Outcome.returned [("aaa".toList, 2)] :=
  ⟨⟨by decide, by decide, by simp [SIZE_MOD], by decide⟩,
    ⟨by decide, by decide⟩,
    (process_string_counts_every_window 2 10 "abc".toList "xaybzc".toList [] (by decide)
      (by decide) (by simp [SIZE_MOD]) (by decide)).2.2.1 "ab".toList (by decide) (by decide),
    by decide, by decide⟩

theorem occurrences_replicate (N : Nat) (a : Char) :
    occurrences 1 (List.replicate N a) [a] = N := by
  unfold occurrences
  rw [List.length_replicate, Nat.add_sub_cancel]
  have h : List.countP (fun i => decide (List.take 1 (List.drop i (List.replicate N a)) = [a]))
      (List.range N) = (List.range N).length := by
    rw [List.countP_eq_length]
    intro i hi
    have hlt : i < N := List.mem_range.mp hi
    have hmin : min 1 (N - i) = 1 := by omega
    simp [List.drop_replicate, List.take_replicate, hmin]
  rw [h, List.length_range]

theorem filtered_text_nil (s : Str) : filtered_text [] s = s := by
  simp [filtered_text]

theorem process_string_replicate (N fuel : Nat) (a : Char) (hN : 1 ≤ N) (hsz : N < SIZE_MOD)
    (hfuel : N < fuel) :
    ∃ t, process_string_and_update_ngrams fuel 1 [] (List.replicate N a) []
        = Outcome.returned t
      ∧ count t [a] = wrap_int (N : Nat)
      ∧ count [] [a] + (occurrences 1 (filtered_text [] (List.replicate N a)) [a] : Nat)
          = (N : Nat) := by
  have hf := filtered_text_nil (List.replicate N a)
  have hlen : (List.replicate N a).length = N := List.length_replicate N a
  refine ⟨_, process_string_returns 1 fuel [] (List.replicate N a) [] (Nat.le_refl 1)
    (by rw [hf, hlen]; exact hN) (by rw [hlen]; exact hsz) (by rw [hlen]; exact hfuel), ?_, ?_⟩
  · rw [count_foldl_increment, sliding_windows_count, hf, occurrences_replicate]
    have h0 : ¬ N = 0 := by omega
    simp [h0, count, lookup]
  · rw [hf, occurrences_replicate]
    simp [count, lookup]

/-- C1 as stated fails on the code. From the empty table, with `n = 1`, no allow-list and a
content of `2^31` characters `a`, the claim gives the count `0 + 2^31 = 2147483648` for the
key "a"; the 32-bit counter holds `-2147483648`. Likewise one more occurrence of "aaa" on a
table where its count is `INT_MAX` leaves `-2147483648`, not `2147483648`. -/
theorem process_string_count_wraps :
    (∃ t, process_string_and_update_ngrams 2147483649 1 [] (List.replicate 2147483648 'a') []
          = Outcome.returned t
        ∧ count t ['a'] = -2147483648
        ∧ count [] ['a'] + (occurrences 1 (filtered_text [] (List.replicate 2147483648 'a'))
            ['a'] : Nat) = 2147483648)
      ∧ process_string_and_update_ngrams 10 3 [] "aaa".toList [("aaa".toList, 2147483647)]
          = Outcome.returned [("aaa".toList, -2147483648)]
      ∧ count [("aaa".toList, 2147483647)] "aaa".toList
          + (occurrences 3 (filtered_text [] "aaa".toList) "aaa".toList : Nat) = 2147483648 := by
  have hwrap : wrap_int ((2147483648 : Nat) : Int) = -2147483648 := by
    unfold wrap_int
    omega
  have hcast : ((2147483648 : Nat) : Int) = 2147483648 := rfl
  obtain ⟨t, ht, hc, hsum⟩ := process_string_replicate 2147483648 2147483649 'a'
    (by omega) (by rw [SIZE_MOD_eq]; omega) (by omega)
  exact ⟨⟨t, ht, hc.trans hwrap, hsum.trans hcast⟩, by decide, by decide⟩

/-- C3. The filtered text is the content itself when the allow-list `w` is empty, and
otherwise the subsequence of the content made of the characters that occur in `w`, in their
original order and with their multiplicity (`List.filter` by membership in `w`). -/
theorem filtered_text_is_subsequence_of_allowed (w s : Str) :
    filtered_text w s = (if w = [] then s else s.filter (fun c => decide (c ∈ w)))
      ∧ (filtered_text w s).Sublist s
      ∧ ∀ c, (filtered_text w s).count c = if w = [] ∨ c ∈ w then s.count c else 0 := by
  have h := filtered_text_eq w s
  refine ⟨h, ?_, ?_⟩
  · rw [h]
    by_cases hw : w = []
    · simp [hw]
    · simp only [hw, if_false]
      exact List.filter_sublist s
  · intro c
    rw [h]
    by_cases hw : w = []
    · simp [hw]
    · simp only [hw, if_false, false_or]
      by_cases hc : c ∈ w
      · simp only [hc, if_true]
        exact List.count_filter (by simpa using hc)
      · simp only [hc, if_false]
        apply List.count_eq_zero_of_not_mem
        intro hmem
        exact hc (by simpa using (List.mem_filter.mp hmem).2)

/-- C9. Filtering is idempotent: filtering an already filtered text with the same allow-list
returns it unchanged. -/
theorem filtered_text_idempotent (w s : Str) :
    filtered_text w (filtered_text w s) = filtered_text w s := by
  rw [filtered_text_eq w (filtered_text w s), filtered_text_eq w s]
  by_cases hw : w = []
  · simp [hw]
  · simp only [hw, if_false, List.filter_filter, Bool.and_self]

/-! ## Texts shorter than the window -/

/-- C2, the code at the claim's own example: `n = 5`, content "ab", empty allow-list. With any
budget of at least four iterations the loop bound wraps to `2 ^ 64 - 3`, the keys "ab", "b"
and "" are incremented at positions 0, 1 and 2, and `substr(3, 5)` throws
`std::out_of_range`; the exception leaves `process_file` before `num_files_done` is
incremented. -/
theorem process_string_shorter_than_window_throws (fuel : Nat) :
    process_string_and_update_ngrams (fuel + 4) 5 [] "ab".toList []
        = Outcome.out_of_range [("ab".toList, 1), ("b".toList, 1), ([], 1)]
      ∧ process_file (fuel + 4) 5 [] (FileRead.content "ab".toList) ⟨[], 0⟩
        = Outcome.out_of_range ⟨[("ab".toList, 1), ("b".toList, 1), ([], 1)], 0⟩ :=
  ⟨rfl, rfl⟩

/-- With an empty filtered text and `n = 1` the bound `0 - 1` wraps to `2 ^ 64 - 1`, the
condition `i <= bound` holds for every `size_t` value and the loop never ends. -/
theorem ngram_loop_empty_text_width_one (fuel i : Nat) (t : ngrams_map) (hi : i < SIZE_MOD) :
    ngram_loop 1 [] fuel i t = Outcome.out_of_fuel t := by
  induction fuel generalizing i with
  | zero => rfl
  | succ fuel ih =>
    have hb : ((([] : Str).length + SIZE_MOD - 1 % SIZE_MOD) % SIZE_MOD) = SIZE_MOD - 1 := by
      simp [SIZE_MOD]
    have hle : i ≤ SIZE_MOD - 1 := by omega
    have hlt : (i + 1) % SIZE_MOD < SIZE_MOD := Nat.mod_lt _ (by simp [SIZE_MOD])
    simp only [ngram_loop, hb, hle, if_true, List.isEmpty_nil, Bool.not_true]
    exact ih _ hlt

/-- With an empty filtered text the guard of line 64 skips every iteration: the loop leaves
the table as it is, and never throws. -/
theorem ngram_loop_empty_text (n fuel i : Nat) (t : ngrams_map) :
    ngram_loop n [] fuel i t = Outcome.returned t
      ∨ ngram_loop n [] fuel i t = Outcome.out_of_fuel t := by
  induction fuel generalizing i with
  | zero => exact Or.inr rfl
  | succ fuel ih =>
    simp only [ngram_loop, List.isEmpty_nil, Bool.not_true]
    split
    · exact ih _
    · exact Or.inl rfl

theorem loop_bound_of_lt (n L : Nat) (hL : L < n) (hn : n < SIZE_MOD) :
    (L + SIZE_MOD - n % SIZE_MOD) % SIZE_MOD = L + SIZE_MOD - n := by
  rw [SIZE_MOD_eq] at *
  omega

/-- A non-empty filtered text shorter than the window: whatever the budget, the loop does
not return; and with a budget of at least `L + 2` iterations it ends in `std::out_of_range`. -/
theorem ngram_loop_short_text (n : Nat) (f : Str) (hpos : 0 < f.length) (hL : f.length < n)
    (hn : n < SIZE_MOD) (fuel : Nat) :
    ∀ (i : Nat) (t : ngrams_map), i ≤ f.length + 1 →
      (∀ t', ngram_loop n f fuel i t ≠ Outcome.returned t')
        ∧ (f.length + 1 - i < fuel → ∃ t', ngram_loop n f fuel i t = Outcome.out_of_range t') := by
  have hb := loop_bound_of_lt n f.length hL hn
  have hne : f.isEmpty = false := by
    cases f with
    | nil => simp at hpos
    | cons a l => rfl
  induction fuel with
  | zero =>
    intro i t _
    exact ⟨fun t' h => (by simp [ngram_loop] at h), fun h => (by omega)⟩
  | succ fuel ih =>
    intro i t hi
    have hle : i ≤ f.length + SIZE_MOD - n := by omega
    simp only [ngram_loop, hb, hle, hne, if_true, Bool.not_false, substr]
    by_cases hgt : i > f.length
    · simp only [hgt, if_true]
      exact ⟨fun t' h => (by cases h), fun _ => ⟨t, rfl⟩⟩
    · have hnext : (i + 1) % SIZE_MOD = i + 1 := Nat.mod_eq_of_lt (by omega)
      simp only [hgt, if_false, hnext]
      obtain ⟨h1, h2⟩ := ih (i + 1) (increment t (List.take (n % SIZE_MOD) (List.drop i f)))
        (by omega)
      exact ⟨h1, fun hf => h2 (by omega)⟩

theorem ngram_loop_keys (n : Nat) (f : Str) (hL : n ≤ f.length) (hsz : f.length < SIZE_MOD)
    (P : Str → Prop) (hP : ∀ i, i + n ≤ f.length → P ((f.drop i).take n)) :
    ∀ (fuel i : Nat) (t t' : ngrams_map), ngram_loop n f fuel i t = Outcome.returned t' →
      (∀ k c, lookup t k = some c → P k) → ∀ k c, lookup t' k = some c → P k := by
  have hnm : n % SIZE_MOD = n := Nat.mod_eq_of_lt (by omega)
  have hb : (f.length + SIZE_MOD - n % SIZE_MOD) % SIZE_MOD = f.length - n :=
    loop_bound_of_le n f.length hL hsz
  intro fuel
  induction fuel with
  | zero => intro i t t' h; simp [ngram_loop] at h
  | succ fuel ih =>
    intro i t t' h ht
    simp only [ngram_loop, hb] at h
    split at h
    · rename_i hle
      split at h
      · simp only [substr] at h
        split at h
        · cases h
        · rename_i g hg
          split at hg
          · cases hg
          · cases hg
            refine ih _ _ _ h ?_
            intro k c hk
            rw [lookup_increment] at hk
            split at hk
            · rename_i hkey
              rw [← hkey, hnm]
              exact hP i (by omega)
            · exact ht k c hk
      · exact ih _ _ _ h ht
    · cases h
      exact ht

theorem mem_filtered_text (w s : Str) (hw : w ≠ []) (ch : Char)
    (h : ch ∈ filtered_text w s) : ch ∈ w := by
  rw [filtered_text_eq] at h
  simp only [hw, if_false] at h
  simpa using (List.mem_filter.mp h).2

/-- Apart from the short-text defect the key invariant holds: a call that returns keeps every
key of the table `n` characters long and drawn from the allow-list. -/
theorem process_string_keys (fuel n : Nat) (w s : Str) (t t' : ngrams_map)
    (hint : n < SIZE_MOD) (hsz : s.length < SIZE_MOD)
    (h : process_string_and_update_ngrams fuel n w s t = Outcome.returned t')
    (ht : KeysWellFormed n w t) : KeysWellFormed n w t' := by
  have hlen := filtered_text_length_le w s
  unfold process_string_and_update_ngrams at h
  by_cases hL : n ≤ (filtered_text w s).length
  · refine ngram_loop_keys n (filtered_text w s) hL (by omega)
      (fun k => k.length = n ∧ (w ≠ [] → ∀ ch ∈ k, ch ∈ w)) ?_ fuel 0 t t' h ht
    intro i hi
    refine ⟨by simp only [List.length_take, List.length_drop]; omega, ?_⟩
    intro hw ch hch
    exact mem_filtered_text w s hw ch (List.mem_of_mem_drop (List.mem_of_mem_take hch))
  · by_cases h0 : (filtered_text w s).length = 0
    · rw [List.length_eq_zero.mp h0] at h
      rcases ngram_loop_empty_text n fuel 0 t with he | he
      · rw [he] at h
        cases h
        exact ht
      · rw [he] at h
        cases h
    · exact absurd h ((ngram_loop_short_text n (filtered_text w s) (by omega) (by omega) hint
        fuel 0 t (by omega)).1 t')

theorem process_strings_keys (fuel n : Nat) (w : Str) (hint : n < SIZE_MOD)
    (l : List Str) (hl : ∀ s ∈ l, s.length < SIZE_MOD) :
    ∀ t t', process_strings fuel n w l t = Outcome.returned t' →
      KeysWellFormed n w t → KeysWellFormed n w t' := by
  induction l with
  | nil =>
    intro t t' h ht
    simp only [process_strings] at h
    cases h
    exact ht
  | cons s rest ih =>
    intro t t' h ht
    simp only [process_strings] at h
    cases hp : process_string_and_update_ngrams fuel n w s t with
    | returned t1 =>
      rw [hp] at h
      exact ih (fun x hx => hl x (List.mem_cons_of_mem s hx)) t1 t' h
        (process_string_keys fuel n w s t t1 hint (hl s (List.mem_cons_self s rest)) hp ht)
    | out_of_range t1 => rw [hp] at h; cases h
    | out_of_fuel t1 => rw [hp] at h; cases h

/-- C8, the code at `n = 3`, allow-list "ab", one file with content "axbx": the filtered text
"ab" is shorter than the window, and the table at the throw holds the keys "ab", "b" and "",
none of which has three characters. -/
theorem process_strings_inserts_short_keys (fuel : Nat) :
    process_strings (fuel + 4) 3 "ab".toList ["axbx".toList] []
        = Outcome.out_of_range [("ab".toList, 1), ("b".toList, 1), ([], 1)]
      ∧ lookup [("ab".toList, 1), ("b".toList, 1), ([], 1)] "ab".toList = some 1
      ∧ "ab".toList.length ≠ 3 := by
  refine ⟨rfl, by decide, by decide⟩

/-! ## Order independence of the accumulated table -/

theorem ngram_loop_eq_keys (n : Nat) (f : Str) (fuel i : Nat) (t : ngrams_map) :
    ngram_loop n f fuel i t
      = (loop_keys n f fuel i).map (fun ks => ks.foldl increment t) := by
  induction fuel generalizing i t with
  | zero => rfl
  | succ fuel ih =>
    simp only [ngram_loop, loop_keys]
    split
    · split
      · cases hsub : substr f i (n % SIZE_MOD) with
        | none => rfl
        | some g =>
          simp only [ih]
          cases loop_keys n f fuel ((i + 1) % SIZE_MOD) <;> rfl
      · exact ih _ _
    · rfl

theorem sameTable_count {t1 t2 : ngrams_map} (h : SameTable t1 t2) (k : Str) :
    count t1 k = count t2 k := by
  unfold count
  rw [h k]

theorem sameTable_foldl {t1 t2 : ngrams_map} (h : SameTable t1 t2) (ks : List Str) :
    SameTable (ks.foldl increment t1) (ks.foldl increment t2) := by
  intro k
  rw [lookup_foldl_increment, lookup_foldl_increment, sameTable_count h k, h k]

theorem sameTable_foldl_comm (t : ngrams_map) (ks1 ks2 : List Str) :
    SameTable (ks2.foldl increment (ks1.foldl increment t))
      (ks1.foldl increment (ks2.foldl increment t)) := by
  intro k
  rw [← List.foldl_append, ← List.foldl_append, lookup_foldl_increment,
    lookup_foldl_increment]
  simp only [List.mem_append, List.count_append]
  rw [Nat.add_comm (List.count k ks1)]
  by_cases h1 : k ∈ ks1 <;> by_cases h2 : k ∈ ks2 <;> simp [h1, h2]

theorem process_strings_cons (fuel n : Nat) (w s : Str) (rest : List Str) (t : ngrams_map) :
    process_strings fuel n w (s :: rest) t
      = match loop_keys n (filtered_text w s) fuel 0 with
        | Outcome.returned ks => process_strings fuel n w rest (ks.foldl increment t)
        | Outcome.out_of_range ks => Outcome.out_of_range (ks.foldl increment t)
        | Outcome.out_of_fuel ks => Outcome.out_of_fuel (ks.foldl increment t) := by
  simp only [process_strings, process_string_and_update_ngrams, ngram_loop_eq_keys]
  cases loop_keys n (filtered_text w s) fuel 0 <;> rfl

theorem process_strings_congr (fuel n : Nat) (w : Str) (l : List Str) :
    ∀ t1 t2, SameTable t1 t2 →
      SameFinal (process_strings fuel n w l t1) (process_strings fuel n w l t2) := by
  induction l with
  | nil =>
    intro t1 t2 h k
    simp [process_strings, Outcome.final, h k]
  | cons s rest ih =>
    intro t1 t2 h
    rw [process_strings_cons, process_strings_cons]
    cases loop_keys n (filtered_text w s) fuel 0 with
    | returned ks => exact ih _ _ (sameTable_foldl h ks)
    | out_of_range ks => intro k; rfl
    | out_of_fuel ks => intro k; rfl

theorem process_strings_swap (fuel n : Nat) (w a b : Str) (l : List Str) (t : ngrams_map) :
    SameFinal (process_strings fuel n w (a :: b :: l) t)
      (process_strings fuel n w (b :: a :: l) t) := by
  rw [process_strings_cons, process_strings_cons]
  cases ha : loop_keys n (filtered_text w a) fuel 0 <;>
    cases hb : loop_keys n (filtered_text w b) fuel 0 <;>
    simp only [process_strings_cons, ha, hb]
  case returned.returned ka kb =>
    exact process_strings_congr fuel n w l _ _ (sameTable_foldl_comm t ka kb)
  all_goals intro k; rfl

theorem process_strings_perm (fuel n : Nat) (w : Str) {l1 l2 : List Str}
    (hp : l1.Perm l2) :
    ∀ t, SameFinal (process_strings fuel n w l1 t) (process_strings fuel n w l2 t) := by
  induction hp with
  | nil => intro t k; rfl
  | cons s _ ih =>
    intro t
    rw [process_strings_cons, process_strings_cons]
    cases loop_keys n (filtered_text w s) fuel 0 with
    | returned ks => exact ih _
    | out_of_range ks => intro k; rfl
    | out_of_fuel ks => intro k; rfl
  | swap a b l => intro t; exact process_strings_swap fuel n w b a l t
  | trans _ _ ih1 ih2 => intro t k; exact (ih1 t k).trans (ih2 t k)

theorem process_strings_returns (fuel n : Nat) (w : Str) (hn : 1 ≤ n) (l : List Str)
    (hl : ∀ s ∈ l, n ≤ (filtered_text w s).length ∧ s.length < SIZE_MOD ∧ s.length < fuel) :
    ∀ t, ∃ t', process_strings fuel n w l t = Outcome.returned t' := by
  induction l with
  | nil => intro t; exact ⟨t, rfl⟩
  | cons s rest ih =>
    intro t
    obtain ⟨h1, h2, h3⟩ := hl s (List.mem_cons_self s rest)
    simp only [process_strings, process_string_returns n fuel w s t hn h1 h2 h3]
    exact ih (fun x hx => hl x (List.mem_cons_of_mem s hx)) _

/-- C6. The accumulated table does not depend on the order of the files: for a window width
`n ≥ 1`, an allow-list and a list of contents `l1` with a permutation `l2`, the calls on `l1`
and on `l2`, each from the empty table, either both fail to return a table or return tables
with the same keys and the same counts; and when every filtered text has length at least `n`
(and the budget exceeds every content length) both orders do return. -/
theorem process_strings_order_independent (fuel n : Nat) (w : Str) (l1 l2 : List Str)
    (hn : 1 ≤ n) (hp : l1.Perm l2) :
    (∀ k, Option.map (fun t => lookup t k) (process_strings fuel n w l1 []).final
        = Option.map (fun t => lookup t k) (process_strings fuel n w l2 []).final)
      ∧ ((∀ s ∈ l1, n ≤ (filtered_text w s).length ∧ s.length < SIZE_MOD ∧ s.length < fuel) →
          ∃ t1 t2, process_strings fuel n w l1 [] = Outcome.returned t1
            ∧ process_strings fuel n w l2 [] = Outcome.returned t2
            ∧ ∀ k, lookup t1 k = lookup t2 k) := by
  have hsame := process_strings_perm fuel n w hp []
  refine ⟨hsame, ?_⟩
  intro hl
  obtain ⟨t1, h1⟩ := process_strings_returns fuel n w hn l1 hl []
  obtain ⟨t2, h2⟩ := process_strings_returns fuel n w hn l2
    (fun s hs => hl s (hp.mem_iff.mpr hs)) []
  refine ⟨t1, t2, h1, h2, ?_⟩
  intro k
  have := hsame k
  rw [h1, h2] at this
  simpa [Outcome.final] using this

/-- Witness for C6: the contents "abab", "ba" and their swap with `n = 2`; and the two files
"aaa", "aaa" with `n = 3`, which give `aaa ↦ 2`. -/
theorem process_strings_order_independent_witness :
    (1 ≤ 2 ∧ ["abab".toList, "ba".toList].Perm ["ba".toList, "abab".toList])
      ∧ ((∀ k, Option.map (fun t => lookup t k)
              (process_strings 10 2 [] ["abab".toList, "ba".toList] []).final
            = Option.map (fun t => lookup t k)
              (process_strings 10 2 [] ["ba".toList, "abab".toList] []).final)
        ∧ ((∀ s ∈ ["abab".toList, "ba".toList],
              2 ≤ (filtered_text [] s).length ∧ s.length < SIZE_MOD ∧ s.length < 10) →
            ∃ t1 t2, process_strings 10 2 [] ["abab".toList, "ba".toList] []
                = Outcome.returned t1
              ∧ process_strings 10 2 [] ["ba".toList, "abab".toList] [] = Outcome.returned t2
              ∧ ∀ k, lookup t1 k = lookup t2 k))
      ∧ process_strings 10 2 [] ["abab".toList, "ba".toList] []
          = Outcome.returned [("ab".toList, 2), ("ba".toList, 2)]
      ∧ process_strings 10 2 [] ["ba".toList, "abab".toList] []
          = Outcome.returned [("ba".toList, 2), ("ab".toList, 2)]
      ∧ process_strings 10 3 [] ["aaa".toList, "aaa".toList] []
          = Outcome.returned [("aaa".toList, 2)] :=
  ⟨⟨by decide, List.Perm.swap _ _ _⟩,
    process_strings_order_independent 10 2 [] ["abab".toList, "ba".toList]
      ["ba".toList, "abab".toList] (by decide) (List.Perm.swap _ _ _),
    by decide, by decide, by decide⟩

/-! ## One file -/

theorem process_file_returned_done (fuel n : Nat) (w : Str) (file : FileRead)
    (st st' : Shared) (h : process_file fuel n w file st = Outcome.returned st') :
    st'.num_files_done = st.num_files_done + 1 := by
  cases file with
  | content s =>
    simp only [process_file] at h
    cases hp : process_string_and_update_ngrams fuel n w s st.ngrams with
    | returned t => rw [hp] at h; cases h; rfl
    | out_of_range t => rw [hp] at h; cases h
    | out_of_fuel t => rw [hp] at h; cases h
  | _ => simp only [process_file] at h; cases h; rfl

theorem parse_options_singleton_ne (arg : Str) (cfg0 cfg : Config) :
    parse_options [arg] cfg0 ≠ Startup.enumerate cfg := by
  simp only [parse_options]
  split_ifs <;> simp

theorem parse_options_append (rest : List Str) :
    ∀ (m : Nat) (pre : List Str), pre.length ≤ m → ∀ (cfg0 cfg : Config),
      parse_options pre cfg0 = Startup.enumerate cfg →
      parse_options (pre ++ rest) cfg0 = parse_options rest cfg := by
  intro m
  induction m with
  | zero =>
    intro pre hlen cfg0 cfg h
    have hnil : pre = [] := List.length_eq_zero.mp (Nat.le_zero.mp hlen)
    subst hnil
    simp only [parse_options, Startup.enumerate.injEq] at h
    subst h
    rfl
  | succ m ih =>
    intro pre hlen cfg0 cfg h
    match pre, hlen, h with
    | [], _, h =>
      simp only [parse_options, Startup.enumerate.injEq] at h
      subst h
      rfl
    | [arg], _, h => exact absurd h (parse_options_singleton_ne arg cfg0 cfg)
    | arg :: value :: pre', hlen, h =>
      have hlen' : pre'.length ≤ m := by simp at hlen; omega
      simp only [parse_options] at h
      simp only [List.cons_append, parse_options]
      split_ifs at h ⊢ with h1 h2 h3 h4
      · exact ih pre' hlen' _ _ h
      · cases hs : stoi value with
        | none => simp [hs] at h
        | some k =>
          simp only [hs] at h ⊢
          split_ifs at h ⊢
          exact ih pre' hlen' _ _ h
      · exact ih pre' hlen' _ _ h
      · cases hs : stoi value with
        | none => simp [hs] at h
        | some k =>
          simp only [hs] at h ⊢
          split_ifs at h ⊢
          exact ih pre' hlen' _ _ h

/-- C10. Configuration errors end `main` with exit status 1 inside the option loop, before
line 295 (so before `list_files` and before any thread is created). For a valid folder and
options `pre` that are well-formed by themselves (the loop accepts them):
if `pre` is followed by `--n v` or `--threads v` where `std::stoi` reads `v` as an integer
`k ≤ 0`, or if one of `--n`, `--threads`, `--whitelist`, `--exclude` follows `pre` as the last
argument, `main` returns 1 with the matching message; and with no option at all the
configuration is `n = 3`, empty allow-list, 4 threads. -/
theorem main_rejects_bad_configuration (is_valid_directory : Str → Bool) (prog folder : Str)
    (pre : List Str) (cfg : Config) (hdir : is_valid_directory folder = true)
    (hpre : parse_options pre default_config = Startup.enumerate cfg) :
    (∀ (v : Str) (k : Int) (post : List Str), stoi v = some k → k ≤ 0 →
        main_startup is_valid_directory (prog :: folder :: (pre ++ "--n".toList :: v :: post))
            = Startup.returns 1 Diagnostic.n_must_be_positive
          ∧ main_startup is_valid_directory
              (prog :: folder :: (pre ++ "--threads".toList :: v :: post))
            = Startup.returns 1 Diagnostic.threads_must_be_positive)
      ∧ main_startup is_valid_directory (prog :: folder :: (pre ++ ["--n".toList]))
          = Startup.returns 1 Diagnostic.expected_integer_after_n
      ∧ main_startup is_valid_directory (prog :: folder :: (pre ++ ["--threads".toList]))
          = Startup.returns 1 Diagnostic.expected_integer_after_threads
      ∧ main_startup is_valid_directory (prog :: folder :: (pre ++ ["--whitelist".toList]))
          = Startup.returns 1 Diagnostic.expected_whitelist
      ∧ main_startup is_valid_directory (prog :: folder :: (pre ++ ["--exclude".toList]))
          = Startup.returns 1 Diagnostic.expected_directory_after_exclude
      ∧ main_startup is_valid_directory [prog, folder] = Startup.enumerate ⟨[], 3, 4, []⟩ := by
  have happ := fun rest => parse_options_append rest pre.length pre (Nat.le_refl _)
    default_config cfg hpre
  refine ⟨?_, ?_, ?_, ?_, ?_, ?_⟩
  · intro v k post hs hk
    constructor
    · simp only [main_startup, hdir, happ, parse_options, hs, hk]
      simp
    · simp only [main_startup, hdir, happ, parse_options, hs, hk]
      simp
  · simp only [main_startup, hdir, happ, parse_options]
    simp
  · simp only [main_startup, hdir, happ, parse_options]
    simp
  · simp only [main_startup, hdir, happ, parse_options]
    simp
  · simp only [main_startup, hdir, happ, parse_options]
    simp
  · simp [main_startup, hdir, parse_options, default_config]

/-- Witness for C10: the folder `d`, preceded options `--whitelist ab`. -/
theorem main_rejects_bad_configuration_witness :
    ((fun _ => true : Str → Bool) "d".toList = true
      ∧ parse_options ["--whitelist".toList, "ab".toList] default_config
          = Startup.enumerate ⟨"ab".toList, 3, 4, []⟩)
    ∧ main_startup (fun _ => true)
        ["ngrams".toList, "d".toList, "--whitelist".toList, "ab".toList, "--n".toList,
          "0".toList]
        = Startup.returns 1 Diagnostic.n_must_be_positive
    ∧ main_startup (fun _ => true)
        ["ngrams".toList, "d".toList, "--whitelist".toList, "ab".toList, "--threads".toList,
          "-2".toList, "--n".toList, "5".toList]
        = Startup.returns 1 Diagnostic.threads_must_be_positive
    ∧ main_startup (fun _ => true)
        ["ngrams".toList, "d".toList, "--whitelist".toList, "ab".toList, "--exclude".toList]
        = Startup.returns 1 Diagnostic.expected_directory_after_exclude :=
  have h := main_rejects_bad_configuration (fun _ => true) "ngrams".toList "d".toList
    ["--whitelist".toList, "ab".toList] ⟨"ab".toList, 3, 4, []⟩ rfl (by decide)
  ⟨⟨rfl, by decide⟩,
    (h.1 "0".toList 0 [] (by decide) (by decide)).1,
    (h.1 "-2".toList (-2) ["--n".toList, "5".toList] (by decide) (by decide)).2,
    h.2.2.2.2.1⟩

/-! ## The worker pool -/

theorem filterMap_cons_toList {α β : Type} (g : α → Option β) (c : α) (cs : List α) :
    (c :: cs).filterMap g = (g c).toList ++ cs.filterMap g := by
  rw [List.filterMap_cons]
  cases g c <;> rfl

theorem filterMap_set_perm {β : Type} (g : WorkerPc → Option β) (x a : WorkerPc) :
    ∀ (ws : List WorkerPc) (w : Nat), ws[w]? = some a →
      ((g a).toList ++ (ws.set w x).filterMap g).Perm
        ((g x).toList ++ ws.filterMap g) := by
  intro ws
  induction ws with
  | nil => intro w h; simp at h
  | cons c cs ih =>
    intro w h
    cases w with
    | zero =>
      simp only [List.getElem?_cons_zero, Option.some.injEq] at h
      subst h
      simp only [List.set_cons_zero, filterMap_cons_toList]
      exact List.perm_append_comm_assoc _ _ _
    | succ w =>
      simp only [List.getElem?_cons_succ] at h
      simp only [List.set_cons_succ, filterMap_cons_toList]
      refine (List.perm_append_comm_assoc _ _ _).trans ?_
      refine List.Perm.trans ?_ (List.perm_append_comm_assoc _ _ _)
      exact List.Perm.append_left _ (ih w h)

theorem process_file_thrown_done (fuel n : Nat) (w : Str) (file : FileRead)
    (st st' : Shared) (h : process_file fuel n w file st = Outcome.out_of_range st') :
    st'.num_files_done = st.num_files_done := by
  cases file with
  | content s =>
    simp only [process_file] at h
    cases hp : process_string_and_update_ngrams fuel n w s st.ngrams with
    | returned t => rw [hp] at h; cases h
    | out_of_range t => rw [hp] at h; cases h; rfl
    | out_of_fuel t => rw [hp] at h; cases h
  | _ => simp only [process_file] at h; cases h

theorem Pool.init_inv (W : Nat) (jobs : List Str) : Pool.Inv jobs W (Pool.init W jobs) := by
  have hact : (List.replicate W WorkerPc.waiting).filterMap WorkerPc.active = [] := by
    rw [List.filterMap_eq_nil_iff]
    intro a ha
    rw [List.eq_of_mem_replicate ha]
    rfl
  refine ⟨by simp [Pool.init], ?_, rfl, ?_, by simp [Pool.init], by simp [Pool.init, hact]⟩
  · have h : (List.replicate W WorkerPc.waiting).filterMap WorkerPc.held = [] := by
      rw [List.filterMap_eq_nil_iff]
      intro a ha
      rw [List.eq_of_mem_replicate ha]
      rfl
    simp [Pool.init, h]
  · intro h
    have := List.eq_of_mem_replicate h
    cases this

theorem Pool.step_inv (env : Env) (jobs : List Str) (W w : Nat) (p p' : Pool)
    (hinv : Pool.Inv jobs W p) (hstep : Pool.process_files_step env w p = some p') :
    Pool.Inv jobs W p' := by
  obtain ⟨hsplit, howned, hdone, hdrained, hsize, hbusy⟩ := hinv
  have hactive : ∀ (x a : WorkerPc), p.workers[w]? = some a →
      ((p.workers.set w x).filterMap WorkerPc.active).length + (a.active.toList).length
        = (p.workers.filterMap WorkerPc.active).length + (x.active.toList).length := by
    intro x a ha
    have := (filterMap_set_perm WorkerPc.active x a p.workers w ha).length_eq
    simp only [List.length_append] at this
    omega
  unfold Pool.process_files_step at hstep
  split at hstep
  · cases hstep
  · split at hstep
    · cases hstep
    · cases hstep
    · -- waiting
      rename_i hw
      split at hstep
      · cases hstep
      · rename_i job queue hq
        cases hstep
        refine ⟨?_, ?_, hdone, ?_, ?_, ?_⟩
        rotate_left 4
        · have := hactive (WorkerPc.holding job) WorkerPc.waiting hw
          simp only [WorkerPc.active, Option.toList, List.length_nil, List.length_singleton]
            at this
          simp only [List.length_append, List.length_singleton]
          omega
        · simp [hsplit, hq]
        · have hp := filterMap_set_perm WorkerPc.held (WorkerPc.holding job) WorkerPc.waiting p.workers w hw
          simp only [WorkerPc.held, Option.toList, List.nil_append, List.singleton_append]
            at hp
          simp only [List.map_append, List.map_cons, List.map_nil]
          refine (List.Perm.append_left p.processed hp).trans ?_
          refine List.perm_middle.trans ?_
          refine (List.Perm.cons job howned).trans ?_
          exact (List.perm_append_singleton job _).symm
        · intro hmem
          rcases List.mem_or_eq_of_mem_set hmem with h | h
          · have := hdrained h
            rw [hq] at this
            cases this
          · cases h
        · simpa using hsize
    · -- holding
      rename_i job hw
      split at hstep
      · rename_i st hpf
        cases hstep
        refine ⟨hsplit, ?_, ?_, ?_, by simpa using hsize, ?_⟩
        rotate_left 3
        · have := hactive WorkerPc.testing (WorkerPc.holding job) hw
          simp only [WorkerPc.active, Option.toList, List.length_singleton] at this
          dsimp only
          omega
        · have hp := filterMap_set_perm WorkerPc.held WorkerPc.testing (WorkerPc.holding job) p.workers w hw
          simp only [WorkerPc.held, Option.toList, List.nil_append, List.singleton_append]
            at hp
          rw [List.append_assoc, List.singleton_append]
          exact (List.Perm.append_left p.processed hp).trans howned
        · have := process_file_returned_done _ _ _ _ _ _ hpf
          simp [this, hdone]
        · intro hmem
          rcases List.mem_or_eq_of_mem_set hmem with h | h
          · exact hdrained h
          · cases h
      · rename_i st hpf
        cases hstep
        refine ⟨hsplit, howned, ?_, hdrained, hsize, hbusy⟩
        have := process_file_thrown_done _ _ _ _ _ _ hpf
        simp [this, hdone]
      · cases hstep
    · -- testing
      rename_i hw
      cases hstep
      refine ⟨hsplit, ?_, hdone, ?_, by simpa using hsize, ?_⟩
      rotate_left 2
      · have := hactive (if p.files_queue.isEmpty then WorkerPc.exited else WorkerPc.waiting)
          WorkerPc.testing hw
        have hle : ((if p.files_queue.isEmpty then WorkerPc.exited
            else WorkerPc.waiting).active.toList).length ≤ 1 := by
          split <;> simp [WorkerPc.active]
        have hone : (WorkerPc.testing.active.toList).length = 1 := rfl
        dsimp only
        omega
      · have hx : (if p.files_queue.isEmpty then WorkerPc.exited else WorkerPc.waiting).held
            = none := by
          split <;> rfl
        have hp := filterMap_set_perm WorkerPc.held
          (if p.files_queue.isEmpty then WorkerPc.exited else WorkerPc.waiting)
          WorkerPc.testing p.workers w hw
        rw [hx] at hp
        simp only [WorkerPc.held, Option.toList, List.nil_append] at hp
        exact (List.Perm.append_left p.processed hp).trans howned
      · intro hmem
        rcases List.mem_or_eq_of_mem_set hmem with h | h
        · exact hdrained h
        · by_cases he : p.files_queue.isEmpty
          · simpa using he
          · simp [he] at h

theorem Pool.run_inv (env : Env) (jobs : List Str) (W : Nat) (schedule : List Nat) :
    ∀ p, Pool.Inv jobs W p → Pool.Inv jobs W (Pool.run env schedule p) := by
  induction schedule with
  | nil => intro p h; exact h
  | cons w rest ih =>
    intro p h
    simp only [Pool.run]
    cases hs : Pool.process_files_step env w p with
    | none => exact ih p h
    | some p' => exact ih p' (Pool.step_inv env jobs W w p p' h hs)

theorem Pool.never_all_exited (env : Env) (W : Nat) (jobs : List Str) (schedule : List Nat)
    (h : jobs.length < W) : ¬ (Pool.run env schedule (Pool.init W jobs)).all_exited := by
  obtain ⟨hsplit, _, _, _, hsize, hbusy⟩ :=
    Pool.run_inv env jobs W schedule _ (Pool.init_inv W jobs)
  generalize Pool.run env schedule (Pool.init W jobs) = p at *
  intro hall
  have hlen : (p.workers.filterMap WorkerPc.active).length = p.workers.length := by
    have hmap : p.workers.filterMap WorkerPc.active = p.workers.map (fun _ => ()) := by
      rw [← List.filterMap_eq_map]
      apply List.filterMap_congr
      intro a ha
      rw [hall a ha]
      rfl
    rw [hmap, List.length_map]
  have hjobs : p.dequeued.length ≤ jobs.length := by
    rw [hsplit, List.length_append, List.length_map]
    omega
  omega

theorem Pool.step_blocked (env : Env) (w v : Nat) (p p' : Pool) (hb : p.blocked v)
    (hstep : Pool.process_files_step env w p = some p') : p'.blocked v := by
  obtain ⟨hv, hq⟩ := hb
  have hne : ∀ x, p.workers[w]? = some x → x ≠ WorkerPc.waiting → w ≠ v := by
    intro x hx hxw hwv
    subst hwv
    rw [hx] at hv
    exact hxw (Option.some.inj hv)
  unfold Pool.process_files_step at hstep
  split at hstep
  · cases hstep
  · split at hstep
    · cases hstep
    · cases hstep
    · rw [hq] at hstep
      cases hstep
    · rename_i job hw
      have hwv := hne _ hw (by simp)
      split at hstep
      · cases hstep
        exact ⟨by simp only [List.getElem?_set_ne hwv, hv], hq⟩
      · cases hstep
        exact ⟨hv, hq⟩
      · cases hstep
    · rename_i hw
      have hwv := hne _ hw (by simp)
      cases hstep
      exact ⟨by simp only [List.getElem?_set_ne hwv, hv], hq⟩

theorem Pool.run_blocked (env : Env) (v : Nat) (schedule : List Nat) :
    ∀ p : Pool, p.blocked v → (Pool.run env schedule p).blocked v := by
  induction schedule with
  | nil => intro p h; exact h
  | cons w rest ih =>
    intro p h
    simp only [Pool.run]
    cases hs : Pool.process_files_step env w p with
    | none => exact ih p h
    | some p' => exact ih p' (Pool.step_blocked env w v p p' h hs)

/-- C5, the code with two workers and one job (`W = 2 > N = 1`): once worker 0 has popped the
job, worker 1 is blocked in the wait of line 163 with the queue empty and every job taken; it
stays blocked after every further schedule, and no schedule from the initial state reaches a
state where both workers have exited. -/
theorem pool_worker_blocks_on_exhausted_queue (env : Env) :
    (Pool.run env [0] (Pool.init 2 ["a.txt".toList])).blocked 1
      ∧ (Pool.run env [0] (Pool.init 2 ["a.txt".toList])).dequeued = [(0, "a.txt".toList)]
      ∧ (∀ schedule, (Pool.run env schedule
            (Pool.run env [0] (Pool.init 2 ["a.txt".toList]))).blocked 1)
      ∧ ∀ schedule, ¬ (Pool.run env schedule (Pool.init 2 ["a.txt".toList])).all_exited := by
  have hb : (Pool.run env [0] (Pool.init 2 ["a.txt".toList])).blocked 1 := ⟨rfl, rfl⟩
  exact ⟨hb, rfl, fun schedule => Pool.run_blocked env 1 schedule _ hb,
    fun schedule => Pool.never_all_exited env 2 _ schedule (by decide)⟩

end Ngrams
